import Mathlib

/-!
Verification of the `stringIncrement` function of this repository
(`src/task1-test-cases/jest.config.js`, appended TypeScript module
`src/simple-function.ts` of the `task1-test-cases` package).

The function takes a JavaScript value, validates it against the anchored
regular expression `^([A-Za-z]{1,4})(\d{1,4})$`, and on success increments
the numeric suffix by one, padding / growing / overflow-resetting the digit
field; on any invalid input it returns the sentinel string "Error".

The embedding below follows the TypeScript source line by line:
  - `JSValue` models the unconstrained JavaScript input domain
    (the test suite calls the function with strings, null, undefined,
    numbers, booleans and objects);
  - `jsTruthy` / `jsTypeofIsString` model the guard
    `!input || typeof input !== 'string'`;
  - `regexSplit` / `jsMatch` model `input.match(validFormatRegex)`
    (the two character classes are disjoint, so the unique way the anchored
    regex can match is a maximal letter run followed by only digits);
  - `parseDigits` models `parseInt(digitPart, 10)` on the all-digit strings
    the capture group can produce;
  - `toDecimal` models `Number.prototype.toString()` on the non-negative
    integers that `incrementedNumber` can be;
  - `padStart` models `String.prototype.padStart(len, '0')`.
-/

/-- ASCII letter test: the `[A-Za-z]` character class of the validation
regular expression, expressed on code points. -/
def isAsciiLetter (c : Char) : Bool :=
  (65 ≤ c.toNat && c.toNat ≤ 90) || (97 ≤ c.toNat && c.toNat ≤ 122)

/-- ASCII digit test: the `\d` character class of the validation regular
expression, expressed on code points (48 = '0', 57 = '9'). -/
def isAsciiDigit (c : Char) : Bool :=
  48 ≤ c.toNat && c.toNat ≤ 57

/-- Embedding of the anchored regular expression
`^([A-Za-z]{1,4})(\d{1,4})$` as a splitting function. Because the letter
class and the digit class are disjoint and the expression is anchored at
both ends, the regex matches exactly when the string is a maximal run of
1 to 4 letters followed by 1 to 4 digits and nothing else; the two capture
groups are then that letter run and that digit run. -/
def regexSplit (cs : List Char) : Option (List Char × List Char) :=
  let l := cs.takeWhile isAsciiLetter
  let r := cs.dropWhile isAsciiLetter
  if 1 ≤ l.length && l.length ≤ 4 && 1 ≤ r.length && r.length ≤ 4 &&
      r.all isAsciiDigit then
    some (l, r)
  else
    none

/-- Numeric value of a digit character. -/
def digitVal (c : Char) : Nat := c.toNat - 48

/-- Model of `parseInt(digitPart, 10)` on the all-digit strings produced by
the second capture group: a plain base-10 left fold. -/
def parseDigits (cs : List Char) : Nat :=
  cs.foldl (fun acc c => 10 * acc + digitVal c) 0

/-- Fuel-driven decimal printer; `fuel` is an upper bound on the recursion
depth so that the definition is structural and kernel-computable. -/
def toDecimalAux : Nat → Nat → List Char
  | 0, _ => []
  | fuel + 1, n =>
    if n < 10 then [Char.ofNat (48 + n)]
    else toDecimalAux fuel (n / 10) ++ [Char.ofNat (48 + n % 10)]

/-- Model of `Number.prototype.toString()` on a non-negative integer: the
usual decimal representation, with no leading zeros. `n + 1` units of fuel
always suffice because a number has at most `n + 1` decimal digits. -/
def toDecimal (n : Nat) : List Char := toDecimalAux (n + 1) n

/-- Model of `String.prototype.padStart(targetLen, pad)` for a single pad
character: prepend copies of `pad` until the length reaches `targetLen`
(no change when the string is already long enough). -/
def padStart (cs : List Char) (targetLen : Nat) (pad : Char) : List Char :=
  List.replicate (targetLen - cs.length) pad ++ cs

/-- The JavaScript values the test suite passes to `stringIncrement`:
strings, numbers, booleans, `null`, `undefined` and (structured) objects.
The object payload is irrelevant to the function and kept abstract as a
field list. -/
inductive JSValue where
  | str (s : String)
  | num (n : Int)
  | boolean (b : Bool)
  | nullValue
  | undefinedValue
  | object (fields : List (String × Int))
deriving DecidableEq, Repr

/-- JavaScript truthiness of a `JSValue`, as tested by `!input`:
the empty string, `0`, `false`, `null` and `undefined` are falsy. -/
def jsTruthy : JSValue → Bool
  | JSValue.str s => !s.isEmpty
  | JSValue.num n => n != 0
  | JSValue.boolean b => b
  | JSValue.nullValue => false
  | JSValue.undefinedValue => false
  | JSValue.object _ => true

/-- Model of `typeof input === 'string'`. -/
def jsTypeofIsString : JSValue → Bool
  | JSValue.str _ => true
  | _ => false

/-- Model of `input.match(validFormatRegex)`: `none` models the `null`
result, and a successful match yields the JavaScript match array
`[full match, group 1, group 2]`. -/
def jsMatch (s : String) : Option (List String) :=
  match regexSplit s.toList with
  | none => none
  | some (l, d) => some [String.mk (l ++ d), String.mk l, String.mk d]

/-- Shallow embedding of the TypeScript function `stringIncrement`,
mirroring the source statement by statement: the type/falsiness guard, the
regex match with its defensive `match.length < 3` guard, `parseInt`,
increment, overflow reset, natural growth, and left zero padding. -/
def stringIncrement (input : JSValue) : String :=
  if !jsTruthy input || !jsTypeofIsString input then
    "Error"
  else
    match input with
    | JSValue.str s =>
      match jsMatch s with
      | none => "Error"
      | some m =>
        if m.length < 3 then
          "Error"
        else
          let letterPart := m.getD 1 ""
          let digitPart := m.getD 2 ""
          let currentNumber := parseDigits digitPart.toList
          let incrementedNumber := currentNumber + 1
          let incrementedStr := toDecimal incrementedNumber
          let newDigitPart : List Char :=
            if incrementedStr.length > 4 then
              List.replicate digitPart.length '0'
            else if incrementedStr.length > digitPart.length then
              incrementedStr
            else
              padStart incrementedStr digitPart.length '0'
          letterPart ++ String.mk newDigitPart
    | _ => "Error"

/-- The digit-field computation of the success path, given the digit
capture group: the same overflow / growth / padding decision as the
`newDigitPart` let-block in the source, named so that theorems can speak
about it directly. -/
def newDigits (d : List Char) : List Char :=
  let incremented := toDecimal (parseDigits d + 1)
  if incremented.length > 4 then
    List.replicate d.length '0'
  else if incremented.length > d.length then
    incremented
  else
    padStart incremented d.length '0'

/-- Model of the JavaScript global environment a call could observe or
mutate (a store of named values). The body of `stringIncrement` mentions
no identifier other than its parameter, local `let` bindings and literals,
so its state-passing embedding returns the ambient store unchanged and
computes the result from the argument alone. -/
def SharedState : Type := List (String × JSValue)

/-- State-passing form of one invocation of `stringIncrement`: the result
paired with the (untouched) global store. -/
def stringIncrementCall (g : SharedState) (v : JSValue) : String × SharedState :=
  (stringIncrement v, g)

/-! ## Helper lemmas about the embedded primitives -/

/-- A digit character is never a letter: the two regex character classes
are disjoint. -/
theorem isAsciiLetter_eq_false_of_digit (c : Char) (h : isAsciiDigit c = true) :
    isAsciiLetter c = false := by
  simp [isAsciiDigit] at h
  simp [isAsciiLetter]
  omega

/-- Appending characters as strings is appending their character lists. -/
theorem string_mk_append (a b : List Char) :
    String.mk a ++ String.mk b = String.mk (a ++ b) := rfl

/-- On a list that starts with a run satisfying `p` followed by a tail whose
head refutes `p`, `takeWhile` returns exactly that run. -/
theorem takeWhile_all_append (p : Char → Bool) (l r : List Char)
    (hl : ∀ c ∈ l, p c = true)
    (hr : ∀ c, r.head? = some c → p c = false) :
    (l ++ r).takeWhile p = l := by
  induction l with
  | nil =>
    simp only [List.nil_append]
    cases r with
    | nil => rfl
    | cons a t =>
      have ha := hr a rfl
      simp [List.takeWhile_cons, ha]
  | cons a t ih =>
    have ha := hl a (by simp)
    simp only [List.cons_append, List.takeWhile_cons, ha, if_true]
    have := ih (fun c hc => hl c (by simp [hc]))
    simp [this]

/-- Companion of `takeWhile_all_append` for `dropWhile`. -/
theorem dropWhile_all_append (p : Char → Bool) (l r : List Char)
    (hl : ∀ c ∈ l, p c = true)
    (hr : ∀ c, r.head? = some c → p c = false) :
    (l ++ r).dropWhile p = r := by
  have h1 := List.takeWhile_append_dropWhile p (l ++ r)
  rw [takeWhile_all_append p l r hl hr] at h1
  exact List.append_cancel_left h1

/-- Soundness direction of the regex embedding: when the split succeeds,
the input decomposes into the two capture groups with the advertised
character classes and length bounds. -/
theorem regexSplit_some_elim (cs l d : List Char)
    (h : regexSplit cs = some (l, d)) :
    cs = l ++ d ∧ (∀ c ∈ l, isAsciiLetter c = true) ∧
    (∀ c ∈ d, isAsciiDigit c = true) ∧
    1 ≤ l.length ∧ l.length ≤ 4 ∧ 1 ≤ d.length ∧ d.length ≤ 4 := by
  rw [regexSplit] at h
  split at h
  · next hc =>
    injection h with h
    injection h with h1 h2
    subst h1
    subst h2
    simp only [Bool.and_eq_true, decide_eq_true_eq, List.all_eq_true] at hc
    refine ⟨(List.takeWhile_append_dropWhile _ _).symm,
      fun c hc' => List.mem_takeWhile_imp hc', hc.2, ?_, ?_, ?_, ?_⟩
    · exact hc.1.1.1.1
    · exact hc.1.1.1.2
    · exact hc.1.1.2
    · exact hc.1.2
  · exact absurd h (by simp)

/-- Completeness direction of the regex embedding: a string that is 1 to 4
letters followed by 1 to 4 digits splits successfully into exactly those
two parts. -/
theorem regexSplit_eq_some (l d : List Char)
    (hl : ∀ c ∈ l, isAsciiLetter c = true)
    (hd : ∀ c ∈ d, isAsciiDigit c = true)
    (hl1 : 1 ≤ l.length) (hl4 : l.length ≤ 4)
    (hd1 : 1 ≤ d.length) (hd4 : d.length ≤ 4) :
    regexSplit (l ++ d) = some (l, d) := by
  have hr : ∀ c, d.head? = some c → isAsciiLetter c = false := by
    intro c hc
    apply isAsciiLetter_eq_false_of_digit
    apply hd
    cases d with
    | nil => exact absurd hc (by simp)
    | cons a t =>
      injection hc with hc
      simp [hc]
  have ht := takeWhile_all_append isAsciiLetter l d hl hr
  have hw := dropWhile_all_append isAsciiLetter l d hl hr
  rw [regexSplit]
  simp only [ht, hw]
  rw [if_pos]
  simp only [Bool.and_eq_true, decide_eq_true_eq, List.all_eq_true]
  exact ⟨⟨⟨⟨hl1, hl4⟩, hd1⟩, hd4⟩, hd⟩

/-- A decimal digit below 10 prints as an ASCII digit character. -/
theorem isAsciiDigit_ofNat (m : Nat) (h : m < 10) :
    isAsciiDigit (Char.ofNat (48 + m)) = true := by
  interval_cases m <;> decide

/-- With enough fuel, the decimal printer emits at least one character,
and only digit characters. -/
theorem toDecimalAux_shape (fuel : Nat) : ∀ n, n < fuel →
    1 ≤ (toDecimalAux fuel n).length ∧
    (∀ c ∈ toDecimalAux fuel n, isAsciiDigit c = true) := by
  induction fuel with
  | zero => intro n h; omega
  | succ f ih =>
    intro n h
    rw [toDecimalAux]
    split
    · next h10 =>
      refine ⟨by simp, ?_⟩
      intro c hc
      simp only [List.mem_singleton] at hc
      subst hc
      exact isAsciiDigit_ofNat n h10
    · next h10 =>
      have hdiv : n / 10 < f := by
        have := Nat.div_lt_self (show 0 < n by omega) (show 1 < 10 by omega)
        omega
      obtain ⟨ih1, ih2⟩ := ih (n / 10) hdiv
      refine ⟨by simp, ?_⟩
      intro c hc
      rw [List.mem_append] at hc
      rcases hc with hc | hc
      · exact ih2 c hc
      · simp only [List.mem_singleton] at hc
        subst hc
        exact isAsciiDigit_ofNat (n % 10) (Nat.mod_lt _ (by omega))

/-- The printed representation of a number below `10 ^ k` has at most `k`
digits (for `k ≥ 1`), with enough fuel. -/
theorem toDecimalAux_length_le (fuel : Nat) : ∀ n k, n < fuel → 1 ≤ k →
    n < 10 ^ k → (toDecimalAux fuel n).length ≤ k := by
  induction fuel with
  | zero => intro n k h; omega
  | succ f ih =>
    intro n k hnf hk hnk
    rw [toDecimalAux]
    split
    · simp
      omega
    · next h10 =>
      have hn10 : 10 ≤ n := by omega
      have hdiv : n / 10 < f := by
        have := Nat.div_lt_self (show 0 < n by omega) (show 1 < 10 by omega)
        omega
      have hk2 : 2 ≤ k := by
        by_contra hlt
        have hk1 : k = 1 := by omega
        subst hk1
        simp at hnk
        omega
      have hpow : 10 ^ k = 10 ^ (k - 1) * 10 := by
        conv_lhs => rw [show k = (k - 1) + 1 by omega]
        rw [pow_succ]
      have hda : n / 10 < 10 ^ (k - 1) := by
        apply Nat.div_lt_of_lt_mul
        rw [mul_comm]
        rw [hpow] at hnk
        exact hnk
      have := ih (n / 10) (k - 1) hdiv (by omega) hda
      simp only [List.length_append, List.length_singleton]
      omega

/-- `toDecimal` is never empty. -/
theorem toDecimal_ne_nil (n : Nat) : 1 ≤ (toDecimal n).length :=
  (toDecimalAux_shape (n + 1) n (by omega)).1

/-- `toDecimal` emits only digit characters. -/
theorem toDecimal_all_digits (n : Nat) :
    ∀ c ∈ toDecimal n, isAsciiDigit c = true :=
  (toDecimalAux_shape (n + 1) n (by omega)).2

/-- Digit-count bound for `toDecimal`. -/
theorem toDecimal_length_le (n k : Nat) (hk : 1 ≤ k) (h : n < 10 ^ k) :
    (toDecimal n).length ≤ k :=
  toDecimalAux_length_le (n + 1) n k (by omega) hk h

/-- Folding the base-10 parse from accumulator `acc` stays below
`(acc + 1) * 10 ^ length` on all-digit input. -/
theorem parseDigits_fold_lt (d : List Char)
    (hd : ∀ c ∈ d, isAsciiDigit c = true) :
    ∀ acc, List.foldl (fun acc c => 10 * acc + digitVal c) acc d <
      (acc + 1) * 10 ^ d.length := by
  induction d with
  | nil => intro acc; simp
  | cons a t ih =>
    intro acc
    simp only [List.foldl_cons, List.length_cons]
    have ha : digitVal a ≤ 9 := by
      have := hd a (by simp)
      simp [isAsciiDigit] at this
      simp [digitVal]
      omega
    have hstep := ih (fun c hc => hd c (by simp [hc])) (10 * acc + digitVal a)
    have hle : (10 * acc + digitVal a + 1) * 10 ^ t.length ≤
        (acc + 1) * 10 ^ (t.length + 1) := by
      calc (10 * acc + digitVal a + 1) * 10 ^ t.length
          ≤ ((acc + 1) * 10) * 10 ^ t.length :=
            Nat.mul_le_mul_right _ (by omega)
        _ = (acc + 1) * 10 ^ (t.length + 1) := by ring
    omega

/-- The value of a digit string of length `k` is below `10 ^ k`. -/
theorem parseDigits_lt (d : List Char)
    (hd : ∀ c ∈ d, isAsciiDigit c = true) :
    parseDigits d < 10 ^ d.length := by
  have := parseDigits_fold_lt d hd 0
  simpa [parseDigits] using this

/-- The only digit string of at most 4 characters whose decimal value is
9999 is the four-character string of nines. -/
theorem parseDigits_eq_9999 (d : List Char)
    (hd : ∀ c ∈ d, isAsciiDigit c = true)
    (hlen : d.length ≤ 4) (hval : parseDigits d = 9999) :
    d = ['9', '9', '9', '9'] := by
  have hlen4 : d.length = 4 := by
    by_contra hne
    have h3 : d.length ≤ 3 := by omega
    have := parseDigits_lt d hd
    have hpow : 10 ^ d.length ≤ 10 ^ 3 :=
      Nat.pow_le_pow_right (by omega) h3
    simp at hpow
    omega
  obtain ⟨a, b, c, e, rfl⟩ : ∃ a b c e, d = [a, b, c, e] := by
    match d, hlen4 with
    | [a, b, c, e], _ => exact ⟨a, b, c, e, rfl⟩
  have ha := hd a (by simp)
  have hb := hd b (by simp)
  have hc := hd c (by simp)
  have he := hd e (by simp)
  simp only [isAsciiDigit, Bool.and_eq_true, decide_eq_true_eq] at ha hb hc he
  simp only [parseDigits, List.foldl_cons, List.foldl_nil, digitVal] at hval
  have h9 : ∀ x : Char, x.toNat = 57 → x = '9' := by
    intro x hx
    have hofn := Char.ofNat_toNat x
    rw [hx] at hofn
    rw [← hofn]
  have hA : a = '9' := h9 a (by omega)
  have hB : b = '9' := h9 b (by omega)
  have hC : c = '9' := h9 c (by omega)
  have hE : e = '9' := h9 e (by omega)
  rw [hA, hB, hC, hE]

/-- Evaluation of the success path: when the regex matches with capture
groups `l` and `d`, the function returns the letter group followed by the
computed digit field. -/
theorem stringIncrement_match (s : String) (l d : List Char)
    (h : regexSplit s.toList = some (l, d)) :
    stringIncrement (JSValue.str s) = String.mk (l ++ newDigits d) := by
  obtain ⟨hsl, hlmem, hdmem, hl1, hl4, hd1, hd4⟩ := regexSplit_some_elim _ _ _ h
  have hne : s.isEmpty = false := by
    rw [Bool.eq_false_iff]
    intro hemp
    rw [String.isEmpty_iff] at hemp
    subst hemp
    have := congrArg List.length hsl
    simp [String.toList] at this
    omega
  have htl : (String.mk d).toList = d := rfl
  have hln : (String.mk d).length = d.length := rfl
  simp only [stringIncrement, jsTruthy, jsTypeofIsString, hne,
    Bool.not_false, Bool.not_true, Bool.or_false, Bool.false_or,
    Bool.false_eq_true, if_false, jsMatch, h]
  simp only [List.length_cons, List.length_nil, List.getD, List.getElem?_cons_succ,
    List.getElem?_cons_zero, Option.getD_some, htl, hln]
  rw [if_neg (by omega)]
  rw [string_mk_append]
  rfl

/-- Evaluation of the failure path on strings: when the regex does not
match, the function returns the sentinel. -/
theorem stringIncrement_nomatch (s : String)
    (h : regexSplit s.toList = none) :
    stringIncrement (JSValue.str s) = "Error" := by
  have h' : regexSplit s.data = none := h
  by_cases hemp : s.isEmpty
  · simp [stringIncrement, jsTruthy, hemp]
  · rw [Bool.not_eq_true] at hemp
    simp [stringIncrement, jsTruthy, jsTypeofIsString, hemp, jsMatch, h']

/-- Evaluation of the failure path on non-string values. -/
theorem stringIncrement_nonstring (v : JSValue)
    (h : jsTypeofIsString v = false) :
    stringIncrement v = "Error" := by
  cases v with
  | str s => simp [jsTypeofIsString] at h
  | num n => simp [stringIncrement, jsTypeofIsString]
  | boolean b => simp [stringIncrement, jsTypeofIsString]
  | nullValue => simp [stringIncrement, jsTypeofIsString]
  | undefinedValue => simp [stringIncrement, jsTypeofIsString]
  | object f => simp [stringIncrement, jsTypeofIsString]

/-- Shape of the computed digit field: on a digit capture group of 1 to 4
characters it consists only of digits, has between 1 and 4 characters, and
its width equals the input width or exceeds it by exactly one. -/
theorem newDigits_spec (d : List Char)
    (hd : ∀ c ∈ d, isAsciiDigit c = true)
    (hd1 : 1 ≤ d.length) (hd4 : d.length ≤ 4) :
    (∀ c ∈ newDigits d, isAsciiDigit c = true) ∧
    1 ≤ (newDigits d).length ∧ (newDigits d).length ≤ 4 ∧
    ((newDigits d).length = d.length ∨
      (newDigits d).length = d.length + 1) := by
  have hval := parseDigits_lt d hd
  have hpow : 10 ^ d.length < 10 ^ (d.length + 1) :=
    Nat.pow_lt_pow_right (by omega) (by omega)
  have hlen1 : (toDecimal (parseDigits d + 1)).length ≤ d.length + 1 :=
    toDecimal_length_le _ _ (by omega) (by omega)
  rw [newDigits]
  split
  · next hov =>
    refine ⟨?_, by simp; omega, by simp; omega, by simp⟩
    intro c hc
    rw [List.eq_of_mem_replicate hc]
    decide
  · next hov =>
    split
    · next hgrow =>
      refine ⟨toDecimal_all_digits _, toDecimal_ne_nil _, by omega, by omega⟩
    · next hgrow =>
      have hle : (toDecimal (parseDigits d + 1)).length ≤ d.length := by omega
      refine ⟨?_, ?_, ?_, ?_⟩
      · intro c hc
        rw [padStart, List.mem_append] at hc
        rcases hc with hc | hc
        · rw [List.eq_of_mem_replicate hc]
          decide
        · exact toDecimal_all_digits _ c hc
      · rw [padStart]
        simp
        omega
      · rw [padStart]
        simp
        omega
      · left
        rw [padStart]
        simp
        omega

/-- Evaluation of the success path on an explicitly decomposed valid
token: 1 to 4 letters followed by 1 to 4 digits. -/
theorem stringIncrement_valid (L D : List Char)
    (hL : ∀ c ∈ L, isAsciiLetter c = true)
    (hD : ∀ c ∈ D, isAsciiDigit c = true)
    (hL1 : 1 ≤ L.length) (hL4 : L.length ≤ 4)
    (hD1 : 1 ≤ D.length) (hD4 : D.length ≤ 4) :
    stringIncrement (JSValue.str (String.mk (L ++ D))) =
      String.mk (L ++ newDigits D) := by
  apply stringIncrement_match
  show regexSplit (L ++ D) = some (L, D)
  exact regexSplit_eq_some L D hL hD hL1 hL4 hD1 hD4

/-- A string made of some characters followed by a non-empty run of digit
characters is never the sentinel "Error" (whose characters are all
letters). -/
theorem mk_append_ne_error (l nd : List Char) (hne : 1 ≤ nd.length)
    (hd : ∀ c ∈ nd, isAsciiDigit c = true) :
    String.mk (l ++ nd) ≠ "Error" := by
  intro h
  have hdata : l ++ nd = ['E', 'r', 'r', 'o', 'r'] := by
    have := congrArg String.data h
    simpa using this
  obtain ⟨c, hc⟩ : ∃ c, c ∈ nd := by
    cases nd with
    | nil => simp at hne
    | cons a t => exact ⟨a, by simp⟩
  have hcm : c ∈ l ++ nd := List.mem_append_right _ hc
  rw [hdata] at hcm
  have hdig := hd c hc
  simp only [List.mem_cons, List.not_mem_nil, or_false] at hcm
  rcases hcm with rfl | rfl | rfl | rfl | rfl <;> simp [isAsciiDigit] at hdig

/-! ## Claim theorems -/

/-- Claim C1: for every valid input (1 to 4 ASCII letters followed by 1 to
4 decimal digits) whose digit part, parsed as a base-10 integer regardless
of leading zeros and incremented by 1, has a decimal representation no
longer than the original digit part, the function returns the original
letter part concatenated with the new representation left-padded with
zeros to exactly the original digit part's length; in particular
"A009" maps to "A010", "F001" to "F002", and "A010" to "A011" (the digit
part is parsed as decimal, never any other base). -/
theorem C1_fixed_width_padding (L D : List Char)
    (hL : ∀ c ∈ L, isAsciiLetter c = true)
    (hL1 : 1 ≤ L.length) (hL4 : L.length ≤ 4)
    (hD : ∀ c ∈ D, isAsciiDigit c = true)
    (hD1 : 1 ≤ D.length) (hD4 : D.length ≤ 4)
    (hfit : (toDecimal (parseDigits D + 1)).length ≤ D.length) :
    (stringIncrement (JSValue.str (String.mk (L ++ D))) =
       String.mk (L ++
         (List.replicate (D.length - (toDecimal (parseDigits D + 1)).length) '0' ++
           toDecimal (parseDigits D + 1))) ∧
     (List.replicate (D.length - (toDecimal (parseDigits D + 1)).length) '0' ++
        toDecimal (parseDigits D + 1)).length = D.length) ∧
    stringIncrement (JSValue.str "A009") = "A010" ∧
    stringIncrement (JSValue.str "F001") = "F002" ∧
    stringIncrement (JSValue.str "A010") = "A011" := by
  refine ⟨⟨?_, ?_⟩, by decide, by decide, by decide⟩
  · rw [stringIncrement_valid L D hL hD hL1 hL4 hD1 hD4]
    simp only [newDigits]
    rw [if_neg (by omega), if_neg (by omega)]
    rfl
  · simp only [List.length_append, List.length_replicate]
    omega

/-- Closed instance of claim C1 at the concrete valid input "B07". -/
theorem C1_fixed_width_padding_witness :
    stringIncrement (JSValue.str (String.mk (['B'] ++ ['0', '7']))) =
      String.mk (['B'] ++
        (List.replicate
          (['0', '7'].length - (toDecimal (parseDigits ['0', '7'] + 1)).length) '0' ++
          toDecimal (parseDigits ['0', '7'] + 1))) :=
  (C1_fixed_width_padding ['B'] ['0', '7'] (by decide) (by decide) (by decide)
    (by decide) (by decide) (by decide) (by decide)).1.1

/-- Claim C2: for every valid input whose digit part, incremented by 1, has
a decimal representation strictly longer than the original digit part but
no longer than 4 digits, the function returns the original letter part
concatenated with the new representation unpadded, and the width grows by
exactly one digit; in particular "A9" maps to "A10", "A99" to "A100", and
"A999" to "A1000". -/
theorem C2_width_growth (L D : List Char)
    (hL : ∀ c ∈ L, isAsciiLetter c = true)
    (hL1 : 1 ≤ L.length) (hL4 : L.length ≤ 4)
    (hD : ∀ c ∈ D, isAsciiDigit c = true)
    (hD1 : 1 ≤ D.length) (hD4 : D.length ≤ 4)
    (hgrow : D.length < (toDecimal (parseDigits D + 1)).length)
    (hfit : (toDecimal (parseDigits D + 1)).length ≤ 4) :
    (stringIncrement (JSValue.str (String.mk (L ++ D))) =
       String.mk (L ++ toDecimal (parseDigits D + 1)) ∧
     (toDecimal (parseDigits D + 1)).length = D.length + 1) ∧
    stringIncrement (JSValue.str "A9") = "A10" ∧
    stringIncrement (JSValue.str "A99") = "A100" ∧
    stringIncrement (JSValue.str "A999") = "A1000" := by
  refine ⟨⟨?_, ?_⟩, by decide, by decide, by decide⟩
  · rw [stringIncrement_valid L D hL hD hL1 hL4 hD1 hD4]
    simp only [newDigits]
    rw [if_neg (by omega), if_pos (by omega)]
  · have hval := parseDigits_lt D hD
    have hpow : 10 ^ D.length < 10 ^ (D.length + 1) :=
      Nat.pow_lt_pow_right (by omega) (by omega)
    have hle := toDecimal_length_le (parseDigits D + 1) (D.length + 1)
      (by omega) (by omega)
    omega

/-- Closed instance of claim C2 at the concrete valid input "A9". -/
theorem C2_width_growth_witness :
    stringIncrement (JSValue.str (String.mk (['A'] ++ ['9']))) =
      String.mk (['A'] ++ toDecimal (parseDigits ['9'] + 1)) :=
  (C2_width_growth ['A'] ['9'] (by decide) (by decide) (by decide) (by decide)
    (by decide) (by decide) (by decide) (by decide)).1.1

/-- Claim C3: for every valid input whose digit part, incremented by 1, has
a decimal representation longer than 4 digits (overflow), the function
returns the original letter part concatenated with an all-zeros digit
string of the original digit part's length; in particular "A9999" maps to
"A0000" and "ZZ9999" to "ZZ0000". -/
theorem C3_overflow_reset (L D : List Char)
    (hL : ∀ c ∈ L, isAsciiLetter c = true)
    (hL1 : 1 ≤ L.length) (hL4 : L.length ≤ 4)
    (hD : ∀ c ∈ D, isAsciiDigit c = true)
    (hD1 : 1 ≤ D.length) (hD4 : D.length ≤ 4)
    (hover : 4 < (toDecimal (parseDigits D + 1)).length) :
    stringIncrement (JSValue.str (String.mk (L ++ D))) =
      String.mk (L ++ List.replicate D.length '0') ∧
    stringIncrement (JSValue.str "A9999") = "A0000" ∧
    stringIncrement (JSValue.str "ZZ9999") = "ZZ0000" := by
  refine ⟨?_, by decide, by decide⟩
  rw [stringIncrement_valid L D hL hD hL1 hL4 hD1 hD4]
  simp only [newDigits]
  rw [if_pos (by omega)]

/-- Closed instance of claim C3 at the concrete valid input "A9999". -/
theorem C3_overflow_reset_witness :
    stringIncrement (JSValue.str (String.mk (['A'] ++ ['9', '9', '9', '9']))) =
      String.mk (['A'] ++ List.replicate ['9', '9', '9', '9'].length '0') :=
  (C3_overflow_reset ['A'] ['9', '9', '9', '9'] (by decide) (by decide)
    (by decide) (by decide) (by decide) (by decide) (by decide)).1

/-- Claim C4: every input that is not a non-empty string matching the
whole-string pattern of 1 to 4 ASCII letters followed by 1 to 4 decimal
digits — including the empty string, letters-only, digits-only, 5+
letters, 5+ digits, interleaved letters and digits, strings with
whitespace or punctuation, null, undefined, numbers, booleans and objects
— yields the single sentinel value "Error"; the function is total over
this unconstrained domain (the embedding returns a value on every input,
so no exception is ever raised). -/
theorem C4_invalid_inputs_rejected :
    (∀ s : String, regexSplit s.toList = none →
      stringIncrement (JSValue.str s) = "Error") ∧
    (∀ v : JSValue, jsTypeofIsString v = false →
      stringIncrement v = "Error") ∧
    stringIncrement (JSValue.str "") = "Error" ∧
    stringIncrement (JSValue.str "ABC") = "Error" ∧
    stringIncrement (JSValue.str "123") = "Error" ∧
    stringIncrement (JSValue.str "ABCDE1") = "Error" ∧
    stringIncrement (JSValue.str "A12345") = "Error" ∧
    stringIncrement (JSValue.str "A1B2") = "Error" ∧
    stringIncrement (JSValue.str "A-1") = "Error" ∧
    stringIncrement (JSValue.str "A 1") = "Error" ∧
    stringIncrement JSValue.nullValue = "Error" ∧
    stringIncrement JSValue.undefinedValue = "Error" ∧
    stringIncrement (JSValue.num 123) = "Error" ∧
    stringIncrement (JSValue.boolean true) = "Error" ∧
    stringIncrement (JSValue.object []) = "Error" :=
  ⟨stringIncrement_nomatch, stringIncrement_nonstring, by decide, by decide,
    by decide, by decide, by decide, by decide, by decide, by decide,
    by decide, by decide, by decide, by decide, by decide⟩

/-- Closed instance of claim C4 at the concrete invalid input "zz!!". -/
theorem C4_invalid_inputs_rejected_witness :
    stringIncrement (JSValue.str "zz!!") = "Error" :=
  C4_invalid_inputs_rejected.1 "zz!!" (by decide)

/-- Claim C5: on every valid input the output's letter part is
character-for-character the input's letter part, with case preserved as
supplied (and only digit characters follow it); in particular "fx001"
maps to "fx002", "FxYz123" to "FxYz124", and "Zz100" is not mapped to the
uppercased "ZZ101". -/
theorem C5_case_preserved (L D : List Char)
    (hL : ∀ c ∈ L, isAsciiLetter c = true)
    (hL1 : 1 ≤ L.length) (hL4 : L.length ≤ 4)
    (hD : ∀ c ∈ D, isAsciiDigit c = true)
    (hD1 : 1 ≤ D.length) (hD4 : D.length ≤ 4) :
    (∃ ds : List Char,
      stringIncrement (JSValue.str (String.mk (L ++ D))) =
        String.mk (L ++ ds) ∧
      (∀ c ∈ ds, isAsciiDigit c = true)) ∧
    stringIncrement (JSValue.str "fx001") = "fx002" ∧
    stringIncrement (JSValue.str "FxYz123") = "FxYz124" ∧
    stringIncrement (JSValue.str "Zz100") ≠ "ZZ101" :=
  ⟨⟨newDigits D, stringIncrement_valid L D hL hD hL1 hL4 hD1 hD4,
      (newDigits_spec D hD hD1 hD4).1⟩,
    by decide, by decide, by decide⟩

/-- Closed instance of claim C5 at the concrete valid input "Zz100". -/
theorem C5_case_preserved_witness :
    ∃ ds : List Char,
      stringIncrement (JSValue.str (String.mk (['Z', 'z'] ++ ['1', '0', '0']))) =
        String.mk (['Z', 'z'] ++ ds) ∧
      (∀ c ∈ ds, isAsciiDigit c = true) :=
  (C5_case_preserved ['Z', 'z'] ['1', '0', '0'] (by decide) (by decide)
    (by decide) (by decide) (by decide) (by decide)).1

/-- Claim C6: on every valid input the output itself matches the same
lexical grammar of 1 to 4 letters followed by 1 to 4 digits (the function
is closed over its valid-input domain), with the digit field's width
changing by at most one position and never exceeding 4; the boundary
shapes are accepted: "A1" maps to "A2" and "ABCD1234" to "ABCD1235". -/
theorem C6_output_closed_over_grammar (L D : List Char)
    (hL : ∀ c ∈ L, isAsciiLetter c = true)
    (hL1 : 1 ≤ L.length) (hL4 : L.length ≤ 4)
    (hD : ∀ c ∈ D, isAsciiDigit c = true)
    (hD1 : 1 ≤ D.length) (hD4 : D.length ≤ 4) :
    (∃ ds : List Char,
      stringIncrement (JSValue.str (String.mk (L ++ D))) =
        String.mk (L ++ ds) ∧
      regexSplit (L ++ ds) = some (L, ds) ∧
      1 ≤ ds.length ∧ ds.length ≤ 4 ∧
      (ds.length = D.length ∨ ds.length = D.length + 1)) ∧
    stringIncrement (JSValue.str "A1") = "A2" ∧
    stringIncrement (JSValue.str "ABCD1234") = "ABCD1235" := by
  obtain ⟨hdig, hge, hle, hwidth⟩ := newDigits_spec D hD hD1 hD4
  exact ⟨⟨newDigits D, stringIncrement_valid L D hL hD hL1 hL4 hD1 hD4,
      regexSplit_eq_some L (newDigits D) hL hdig hL1 hL4 hge hle,
      hge, hle, hwidth⟩,
    by decide, by decide⟩

/-- Closed instance of claim C6 at the concrete valid input "A1". -/
theorem C6_output_closed_over_grammar_witness :
    ∃ ds : List Char,
      stringIncrement (JSValue.str (String.mk (['A'] ++ ['1']))) =
        String.mk (['A'] ++ ds) ∧
      regexSplit (['A'] ++ ds) = some (['A'], ds) ∧
      1 ≤ ds.length ∧ ds.length ≤ 4 ∧
      (ds.length = ['1'].length ∨ ds.length = ['1'].length + 1) :=
  (C6_output_closed_over_grammar ['A'] ['1'] (by decide) (by decide)
    (by decide) (by decide) (by decide) (by decide)).1

/-- Claim C7: the success path can never produce the sentinel "Error"
(every success output ends in a non-empty run of digit characters, while
the sentinel contains none), so equality with the sentinel is a sound and
complete test for failure: the function returns "Error" exactly on the
inputs that are not strings accepted by the validation regex. -/
theorem C7_sentinel_sound_complete :
    ∀ v : JSValue, stringIncrement v = "Error" ↔
      ¬ ∃ s : String, v = JSValue.str s ∧ (regexSplit s.toList).isSome = true := by
  intro v
  cases v with
  | str s =>
    cases hm : regexSplit s.toList with
    | none =>
      rw [stringIncrement_nomatch s hm]
      simp only [eq_self_iff_true, true_iff]
      rintro ⟨s', hs', hsome⟩
      injection hs' with hs'
      subst hs'
      rw [hm] at hsome
      simp at hsome
    | some ld =>
      obtain ⟨l, d⟩ := ld
      have heval := stringIncrement_match s l d hm
      obtain ⟨hsl, hlmem, hdmem, hl1, hl4, hd1, hd4⟩ :=
        regexSplit_some_elim _ _ _ hm
      obtain ⟨hdig, hge, hle, hwidth⟩ := newDigits_spec d hdmem hd1 hd4
      constructor
      · intro herr
        rw [heval] at herr
        exact absurd herr (mk_append_ne_error l (newDigits d) hge hdig)
      · intro hcon
        exact absurd ⟨s, rfl, by rw [hm]; rfl⟩ hcon
  | num n =>
    rw [stringIncrement_nonstring (JSValue.num n) rfl]
    simp
  | boolean b =>
    rw [stringIncrement_nonstring (JSValue.boolean b) rfl]
    simp
  | nullValue =>
    rw [stringIncrement_nonstring JSValue.nullValue rfl]
    simp
  | undefinedValue =>
    rw [stringIncrement_nonstring JSValue.undefinedValue rfl]
    simp
  | object f =>
    rw [stringIncrement_nonstring (JSValue.object f) rfl]
    simp

/-- Claim C8: one invocation of `stringIncrement`, in state-passing form,
computes its result from the argument alone — any two ambient global
stores give the same result — leaves the store untouched, and a second
invocation on the same argument after the first returns the same result. -/
theorem C8_pure_deterministic :
    ∀ (g g' : SharedState) (v : JSValue),
      (stringIncrementCall g v).1 = (stringIncrementCall g' v).1 ∧
      (stringIncrementCall g v).2 = g ∧
      (stringIncrementCall ((stringIncrementCall g v).2) v).1 =
        (stringIncrementCall g v).1 := by
  intro g g' v
  exact ⟨rfl, rfl, rfl⟩

/-- Claim C9: on valid inputs, overflow (the incremented value's decimal
representation exceeding 4 digits) happens exactly when the digit part is
the four-character string "9999"; consequently the all-zeros overflow
output always has exactly 4 digits. -/
theorem C9_overflow_only_at_9999 (L D : List Char)
    (hL : ∀ c ∈ L, isAsciiLetter c = true)
    (hL1 : 1 ≤ L.length) (hL4 : L.length ≤ 4)
    (hD : ∀ c ∈ D, isAsciiDigit c = true)
    (hD1 : 1 ≤ D.length) (hD4 : D.length ≤ 4) :
    (4 < (toDecimal (parseDigits D + 1)).length ↔ D = ['9', '9', '9', '9']) ∧
    (4 < (toDecimal (parseDigits D + 1)).length →
      stringIncrement (JSValue.str (String.mk (L ++ D))) =
        String.mk (L ++ ['0', '0', '0', '0'])) := by
  have hval := parseDigits_lt D hD
  have hpow4 : 10 ^ D.length ≤ 10 ^ 4 := Nat.pow_le_pow_right (by omega) hD4
  have hv2 : parseDigits D < 10000 := by
    have := lt_of_lt_of_le hval hpow4
    simpa using this
  have hiff : 4 < (toDecimal (parseDigits D + 1)).length ↔
      D = ['9', '9', '9', '9'] := by
    constructor
    · intro hover
      have h1 : 10 ^ 4 ≤ parseDigits D + 1 := by
        by_contra hlt
        push_neg at hlt
        have := toDecimal_length_le (parseDigits D + 1) 4 (by omega) hlt
        omega
      norm_num at h1
      exact parseDigits_eq_9999 D hD hD4 (by omega)
    · intro hD9
      subst hD9
      decide
  refine ⟨hiff, ?_⟩
  intro hover
  have hD9 := hiff.mp hover
  rw [stringIncrement_valid L D hL hD hL1 hL4 hD1 hD4]
  simp only [newDigits]
  rw [if_pos (by omega)]
  subst hD9
  rfl

/-- Closed instance of claim C9 at the concrete valid input "A9999". -/
theorem C9_overflow_only_at_9999_witness :
    stringIncrement (JSValue.str (String.mk (['A'] ++ ['9', '9', '9', '9']))) =
      String.mk (['A'] ++ ['0', '0', '0', '0']) :=
  (C9_overflow_only_at_9999 ['A'] ['9', '9', '9', '9'] (by decide) (by decide)
    (by decide) (by decide) (by decide) (by decide)).2 (by decide)

/-- Claim C10: whenever the validation regex succeeds on a string, the
resulting match array has exactly 3 entries (full match plus two capture
groups), so the defensive guard on the array length is unreachable; on
the string path the sentinel is returned exactly when the regex fails. -/
theorem C10_defensive_guard_unreachable :
    ∀ s : String,
      (∀ m, jsMatch s = some m → m.length = 3) ∧
      (stringIncrement (JSValue.str s) = "Error" ↔ jsMatch s = none) := by
  intro s
  constructor
  · intro m hm
    rw [jsMatch] at hm
    cases hsp : regexSplit s.toList with
    | none =>
      rw [hsp] at hm
      exact absurd hm (by simp)
    | some ld =>
      obtain ⟨l, d⟩ := ld
      rw [hsp] at hm
      injection hm with hm
      rw [← hm]
      rfl
  · cases hsp : regexSplit s.toList with
    | none =>
      rw [stringIncrement_nomatch s hsp]
      have hsp' : regexSplit s.data = none := hsp
      simp [jsMatch, hsp']
    | some ld =>
      obtain ⟨l, d⟩ := ld
      have heval := stringIncrement_match s l d hsp
      obtain ⟨hsl, hlmem, hdmem, hl1, hl4, hd1, hd4⟩ :=
        regexSplit_some_elim _ _ _ hsp
      obtain ⟨hdig, hge, hle, hwidth⟩ := newDigits_spec d hdmem hd1 hd4
      rw [heval]
      constructor
      · intro herr
        exact absurd herr (mk_append_ne_error l (newDigits d) hge hdig)
      · intro hnone
        rw [jsMatch, hsp] at hnone
        exact absurd hnone (by simp)

/-- Closed instance of claim C10 at the concrete matching input "A1". -/
theorem C10_defensive_guard_unreachable_witness :
    jsMatch "A1" = some ["A1", "A", "1"] ∧
      (["A1", "A", "1"] : List String).length = 3 :=
  ⟨by decide,
    (C10_defensive_guard_unreachable "A1").1 ["A1", "A", "1"] (by decide)⟩

/-- Closed instance of claim C7: the valid input "zz9" is not mapped to
the sentinel. -/
theorem C7_sentinel_sound_complete_witness :
    stringIncrement (JSValue.str "zz9") ≠ "Error" :=
  fun h => (C7_sentinel_sound_complete (JSValue.str "zz9")).mp h
    ⟨"zz9", rfl, by decide⟩

/-- Closed instance of claim C8: two different ambient stores give the
same result on the input "A1". -/
theorem C8_pure_deterministic_witness :
    (stringIncrementCall [] (JSValue.str "A1")).1 =
      (stringIncrementCall [("x", JSValue.nullValue)] (JSValue.str "A1")).1 :=
  (C8_pure_deterministic [] [("x", JSValue.nullValue)] (JSValue.str "A1")).1
